import Mathlib

/-!
Shallow embedding of the canonicalizing hash table of
`parallel-hashlife-rust` (`src/hashtable_base.rs` and its two slot
backends `src/hashtable_base/local.rs`, `src/hashtable_base/sync.rs`),
together with proofs checking the natural-language specification
against it.

Machine integers are modelled as `Nat` with explicit bounds / masking
where the code depends on them; interior mutability (`Cell`,
`UnsafeCell`, atomics) is modelled by explicit state passing: an
operation that mutates through `&self` returns the updated state
alongside its result.  The execution model is sequential; the
concurrent (`sync`) backend is embedded at its sequential semantics
(every atomic read sees the single current value).
-/

namespace PHL

/-- Model of `hashtable_base::Key`: `pub struct Key(pub [[[NonZeroU32; 2]; 2]; 2])`.
Eight 32-bit components, each nonzero; modelled as eight `Nat` fields
with the nonzero/width constraints expressed by `Key.Wf`. -/
structure Key where
  k000 : Nat
  k001 : Nat
  k010 : Nat
  k011 : Nat
  k100 : Nat
  k101 : Nat
  k110 : Nat
  k111 : Nat
deriving DecidableEq, Repr

/-- The `NonZeroU32` constraint on each of a key's eight components. -/
def Key.Wf (k : Key) : Prop :=
  0 < k.k000 ∧ k.k000 < 2 ^ 32 ∧ 0 < k.k001 ∧ k.k001 < 2 ^ 32 ∧
  0 < k.k010 ∧ k.k010 < 2 ^ 32 ∧ 0 < k.k011 ∧ k.k011 < 2 ^ 32 ∧
  0 < k.k100 ∧ k.k100 < 2 ^ 32 ∧ 0 < k.k101 ∧ k.k101 < 2 ^ 32 ∧
  0 < k.k110 ∧ k.k110 < 2 ^ 32 ∧ 0 < k.k111 ∧ k.k111 < 2 ^ 32

instance (k : Key) : Decidable k.Wf := by unfold Key.Wf; infer_instance

/-- Model of `local::LocalTableValues<EarlyValue, LateValue>`: an immutable early
value plus a `Cell<Option<LateValue>>`. -/
structure Values (α β : Type) where
  earlyValue : α
  lateValue : Option β
deriving DecidableEq, Repr

/-- Model of `TableEntryValues::new` for the local backend. -/
def Values.new (e : α) (l : Option β) : Values α β := ⟨e, l⟩

/-- Model of `TableEntryValues::early_value` for the local backend. -/
def Values.early_value (v : Values α β) : α := v.earlyValue

/-- Model of `TableEntryValues::late_value` for the local backend. -/
def Values.late_value (v : Values α β) : Option β := v.lateValue

/-- Model of `TableEntryValues::set_late_value` for the local backend:
`self.late_value.set(late_value)` — stores whatever option it is given. -/
def Values.set_late_value (v : Values α β) (l : Option β) : Values α β :=
  { v with lateValue := l }

/-- A `local::LocalTableEntry`: logically an optional `(key, values)`
pair (the `key000: Option<NonZeroU32>` cell is the occupancy flag; the
remaining key cells and the `MaybeUninit` value hold junk while empty). -/
abbrev Slot (α β : Type) := Option (Key × Values α β)

/-- Model of `TableEntry::empty` (local backend `EMPTY`). -/
def Slot.emptySlot (α β : Type) : Slot α β := none

/-- Model of `LocalTableEntry::get`: `Some((key, value_ref))` when occupied. -/
def Slot.get (s : Slot α β) : Option (Key × Values α β) := s

/-- Result of `TableEntry::fill`: `Ok(&entry)` or
`Err(AlreadyFull { passed_in_value, entry_key, entry_value })`. -/
inductive FillResult (α β : Type) where
  | ok (entry : Values α β)
  | alreadyFull (passedInValue : Values α β) (entryKey : Key)
      (entryValue : Values α β)
deriving DecidableEq, Repr

/-- Model of `LocalTableEntry::fill`: if `self.get()` is occupied, return
`AlreadyFull` with the occupying key/value and the caller's value,
leaving the slot untouched; otherwise store the key and value and
return `Ok` with the stored entry. -/
def Slot.fill (s : Slot α β) (k : Key) (v : Values α β) :
    Slot α β × FillResult α β :=
  match s.get with
  | some (entryKey, entryValue) =>
      (s, .alreadyFull v entryKey entryValue)
  | none => (some (k, v), .ok v)

/-- Model of `LocalTableEntry::take`: removes and returns the contents if
occupied (the slot becomes empty), `None` if already empty. -/
def Slot.take (s : Slot α β) : Slot α β × Option (Key × Values α β) :=
  match s with
  | none => (none, none)
  | some e => (none, some e)

/-! ## The open-addressing table (`hashtable_base.rs`) -/

/-- Fuel-driven computation of the least power of two `≥ n`
(`1` for `n ≤ 1`).  This is the documented behaviour of the Rust
standard library's `usize::next_power_of_two`, which the repository
calls but whose source is external; fuel `n` always suffices. -/
def nptGo (fuel n : Nat) : Nat :=
  match fuel with
  | 0 => 1
  | fuel + 1 => if n ≤ 1 then 1 else 2 * nptGo fuel ((n + 1) / 2)

/-- The least power of two `≥ n` (`1` for `n = 0`), as computed by the
Rust standard library's `next_power_of_two`. -/
def nextPowerOfTwo (n : Nat) : Nat := nptGo n n

/-- Rust's `usize::checked_next_power_of_two` on a 64-bit target: the
least power of two `≥ n` when that fits in a `usize`, `none` (→ panic
via `.expect("capacity too big")` at the call site) when it overflows. -/
def checkedNextPowerOfTwo (n : Nat) : Option Nat :=
  if n ≤ 2 ^ 63 then some (nextPowerOfTwo n) else none

/-- Model of `usize::max_value()` on a 64-bit target. -/
def usizeMax : Nat := 2 ^ 64 - 1

/-- Model of `hashtable_base::HashTable`: the slot array (the `Option<Box<_>>`
wrapper in the source is always `Some`; `get_table` relies on that, so
the model stores the slice directly), the `BuildHasher` (modelled as
the `Key → Nat` function `hash(key)` it computes via
`hasher.finish()`), and the insert search limit. -/
structure HashTable (α β : Type) where
  slots : List (Slot α β)
  hashFn : Key → Nat
  insertSearchLimit : Nat

/-- Model of `HashTable::capacity`: length of the slot array. -/
def HashTable.capacity (t : HashTable α β) : Nat := t.slots.length

/-- One step of `TableIndexIter::next`'s state update:
`table_index.wrapping_add(1) & table_index_mask` (the masked index is
always `≤ mask < usize::MAX`, so the wrapping add never wraps). -/
def probeStep (mask i : Nat) : Nat := (i + 1) &&& mask

/-- The first `n` indexes produced by `TableIndexIter` starting from
`start`. -/
def probeList (mask start : Nat) : Nat → List Nat
  | 0 => []
  | n + 1 => start :: probeList mask (probeStep mask start) n

/-- The probe start index
`hasher.finish() as usize & table_index_mask`; truncating the hash to
64 bits before masking is a no-op because the mask is below `2^64`. -/
def HashTable.startIndex (t : HashTable α β) (k : Key) : Nat :=
  t.hashFn k &&& (t.capacity - 1)

/-- Model of `HashTable::table_indexes`:
`TableIndexIter { table_index, table_index_mask }.take(capacity.min(limit))`. -/
def HashTable.tableIndexes (t : HashTable α β) (k : Key) (limit : Nat) :
    List Nat :=
  probeList (t.capacity - 1) (t.startIndex k) (min t.capacity limit)

/-- The loop of `HashTable::find` over the probe indexes: stop with
`None` at the first empty slot (the `?` on `table[table_index].get()`),
return the entry on a key match, otherwise keep probing. -/
def findAux (slots : List (Slot α β)) (k : Key) :
    List Nat → Option (Values α β)
  | [] => none
  | i :: rest =>
    match (slots.getD i none).get with
    | none => none
    | some (entryKey, entryValue) =>
      if entryKey = k then some entryValue else findAux slots k rest

/-- Model of `HashTable::find`: probe with limit `usize::max_value()`. -/
def HashTable.find (t : HashTable α β) (k : Key) : Option (Values α β) :=
  findAux t.slots k (t.tableIndexes k usizeMax)

/-- Model of `Ok(&Values)` / `InsertFailureReason` outcome of `HashTable::insert`. -/
inductive InsertResult (α β : Type) where
  | ok (entry : Values α β)
  | alreadyInTable (passedInValue : Values α β) (entryValue : Values α β)
  | tableFullOrSearchLimitHit (passedInValue : Values α β)
deriving DecidableEq, Repr

/-- The loop of `HashTable::insert` over the probe indexes, threading
the caller's value through each failed `fill` exactly as the source
rebinds `value = passed_in_value`.  Mutation through `&self` is
modelled by returning the updated slot array. -/
def insertAux (slots : List (Slot α β)) (k : Key) (v : Values α β) :
    List Nat → List (Slot α β) × InsertResult α β
  | [] => (slots, .tableFullOrSearchLimitHit v)
  | i :: rest =>
    match Slot.fill (slots.getD i none) k v with
    | (s', .ok entryValue) => (slots.set i s', .ok entryValue)
    | (_, .alreadyFull passedInValue entryKey entryValue) =>
      if entryKey = k then (slots, .alreadyInTable passedInValue entryValue)
      else insertAux slots k passedInValue rest

/-- Model of `HashTable::insert`: probe with limit `insert_search_limit`. -/
def HashTable.insert (t : HashTable α β) (k : Key) (v : Values α β) :
    HashTable α β × InsertResult α β :=
  let r := insertAux t.slots k v (t.tableIndexes k t.insertSearchLimit)
  ({ t with slots := r.1 }, r.2)

/-- Model of `GetOrInsertSuccess` / `GetOrInsertFailureReason` outcome of
`HashTable::get_or_insert`. -/
inductive GetOrInsertResult (α β : Type) where
  | ok (passedInValue : Option (Values α β)) (entryValue : Values α β)
  | tableFullOrSearchLimitHit (passedInValue : Values α β)
deriving DecidableEq, Repr

/-- Model of `HashTable::get_or_insert`: wraps `insert`, collapsing `Ok` and
`AlreadyInTable` into the success type. -/
def HashTable.getOrInsert (t : HashTable α β) (k : Key) (v : Values α β) :
    HashTable α β × GetOrInsertResult α β :=
  match t.insert k v with
  | (t', .ok entryValue) => (t', .ok none entryValue)
  | (t', .alreadyInTable passedInValue entryValue) =>
      (t', .ok (some passedInValue) entryValue)
  | (t', .tableFullOrSearchLimitHit passedInValue) =>
      (t', .tableFullOrSearchLimitHit passedInValue)

/-- Model of `HashTableDrain` driven to completion (a `for` loop, or the
`for_each` in its `Drop` impl, pulls `next()` until it returns `None`):
`next()` is `entry_iter.next().and_then(TableEntry::take)`, so each
occupied slot is taken in turn, and the first *empty* slot makes
`next()` return `None`, ending iteration with every later slot left
untouched.  Returns the yielded pairs and the slot array afterwards. -/
def drainLoop : List (Slot α β) → List (Key × Values α β) × List (Slot α β)
  | [] => ([], [])
  | none :: rest => ([], none :: rest)
  | some e :: rest =>
      let r := drainLoop rest
      (e :: r.1, none :: r.2)

/-- Model of `HashTable::drain`, with the returned iterator consumed to
completion (dropping it early and letting `Drop` finish is the same,
since `Drop` itself iterates with `for_each`). -/
def HashTable.drain (t : HashTable α β) :
    List (Key × Values α β) × HashTable α β :=
  let r := drainLoop t.slots
  (r.1, { t with slots := r.2 })

/-- Model of `HashTableIter` driven to completion: `next()` is
`entry_iter.next().and_then(TableEntry::get)`, so iteration yields
occupied slots in order and ends at the first empty slot. -/
def iterLoop : List (Slot α β) → List (Key × Values α β)
  | [] => []
  | none :: _ => []
  | some e :: rest => e :: iterLoop rest

/-- Model of `HashTable::iter`, with the returned iterator consumed to
completion; the table itself is not modified. -/
def HashTable.iterPairs (t : HashTable α β) : List (Key × Values α β) :=
  iterLoop t.slots

/-- Model of `HashTable::with_search_limit_and_hasher`: round the capacity up
with `checked_next_power_of_two` (`none` models the
`expect("capacity too big")` panic) and fill the table with
`Entry::empty()`. -/
def HashTable.withSearchLimitAndHasher (α β : Type) (capacity : Nat)
    (insertSearchLimit : Nat) (hashFn : Key → Nat) :
    Option (HashTable α β) :=
  match checkedNextPowerOfTwo capacity with
  | none => none
  | some c => some ⟨List.replicate c none, hashFn, insertSearchLimit⟩

/-- Model of `HashTable::with_hasher`: search limit defaults to 32. -/
def HashTable.withHasher (α β : Type) (capacity : Nat)
    (hashFn : Key → Nat) : Option (HashTable α β) :=
  HashTable.withSearchLimitAndHasher α β capacity 32 hashFn

/-- Model of `HashTable::new`: `with_hasher(capacity, BH::default())`; the
default `BuildHasher`'s hash function is the supplied `hashFn`. -/
def HashTable.newTable (α β : Type) (capacity : Nat)
    (hashFn : Key → Nat) : Option (HashTable α β) :=
  HashTable.withHasher α β capacity hashFn

/-- A later table operation, for stating persistence of inserted
entries across arbitrary call sequences: a call to `insert` or to
`get_or_insert` (each used for its effect on the table). -/
inductive TableOp (α β : Type) where
  | insertOp (k : Key) (v : Values α β)
  | getOrInsertOp (k : Key) (v : Values α β)

/-- The table state after performing one `TableOp`. -/
def HashTable.applyOp (t : HashTable α β) : TableOp α β → HashTable α β
  | .insertOp k v => (t.insert k v).1
  | .getOrInsertOp k v => (t.getOrInsert k v).1

/-- The table state after performing a sequence of `TableOp`s. -/
def HashTable.runOps (t : HashTable α β) (ops : List (TableOp α β)) :
    HashTable α β :=
  ops.foldl HashTable.applyOp t

/-! ## The concurrent slot backend (`hashtable_base/sync.rs`),
embedded at its sequential semantics -/

/-- Model of `sync::SyncTableValues<EarlyValue, NonZeroU32>`: the early value
plus the `AtomicU32` late-value cell, whose raw bits store `0` for
"unset" and the `NonZeroU32` otherwise. -/
structure SyncValues (α : Type) where
  earlyValue : α
  lateValueBits : Nat
deriving DecidableEq, Repr

/-- Model of `TableEntryValues::new` for the sync backend:
`late_value.map(NonZeroU32::get).unwrap_or(0)`. -/
def SyncValues.new (e : α) (l : Option Nat) : SyncValues α :=
  ⟨e, match l with | some x => x | none => 0⟩

/-- Model of `TableEntryValues::early_value` for the sync backend. -/
def SyncValues.early_value (v : SyncValues α) : α := v.earlyValue

/-- Model of `TableEntryValues::late_value` for the sync backend:
`NonZeroU32::new(self.late_value.load(Acquire))`. -/
def SyncValues.late_value (v : SyncValues α) : Option Nat :=
  if v.lateValueBits = 0 then none else some v.lateValueBits

/-- Model of `TableEntryValues::set_late_value` for the sync backend:
stores `late_value.map(NonZeroU32::get).unwrap_or(0)`. -/
def SyncValues.set_late_value (v : SyncValues α) (l : Option Nat) :
    SyncValues α :=
  { v with lateValueBits := match l with | some x => x | none => 0 }

/-- Model of `sync::pack_u64` for a little-endian target:
`v0 as u64 + ((v1 as u64) << 32)`. -/
def pack_u64 (v0 v1 : Nat) : Nat := v0 + v1 * 2 ^ 32

/-- Model of `sync::unpack_u64` for a little-endian target:
`[v as u32, (v >> 32) as u32]`. -/
def unpack_u64 (v : Nat) : Nat × Nat :=
  (v % 2 ^ 32, (v / 2 ^ 32) % 2 ^ 32)

/-- Model of `sync::State`: the decoded form of the packed `AtomicU64` word. -/
inductive State where
  | empty
  | modificationInProgress
  | full (key00a key00b : Nat)
deriving DecidableEq, Repr

/-- Model of `State::EMPTY_U64 = pack_u64([0, 0])`. -/
def State.EMPTY_U64 : Nat := pack_u64 0 0

/-- Model of `State::MODIFICATION_IN_PROGRESS_U64 = pack_u64([1, 0])`. -/
def State.MODIFICATION_IN_PROGRESS_U64 : Nat := pack_u64 1 0

/-- Model of `impl From<State> for u64`. -/
def State.encode : State → Nat
  | .empty => State.EMPTY_U64
  | .modificationInProgress => State.MODIFICATION_IN_PROGRESS_U64
  | .full a b => pack_u64 a b

/-- Model of `impl From<u64> for State`; `none` models the
`expect("invalid state")` panic raised when a supposed key half
unpacks to zero. -/
def State.decode (v : Nat) : Option State :=
  if v = State.EMPTY_U64 then some .empty
  else if v = State.MODIFICATION_IN_PROGRESS_U64 then
    some .modificationInProgress
  else
    match unpack_u64 v with
    | (u0, u1) => if u0 = 0 ∨ u1 = 0 then none else some (.full u0 u1)

/-- The `NonZeroU32` constraint on a state's key halves. -/
def State.Wf : State → Prop
  | .empty => True
  | .modificationInProgress => True
  | .full a b => 0 < a ∧ a < 2 ^ 32 ∧ 0 < b ∧ b < 2 ^ 32

/-- Model of `sync::SyncTableEntry` at its sequential semantics: the packed
`AtomicU64` state word, the four plain key cells of `key01`/`key1`
(junk `1`s while not full), and the `MaybeUninit` value (`none` =
uninitialized). -/
structure SyncSlot (α : Type) where
  state : Nat
  key01a : Nat
  key01b : Nat
  key1a : Nat
  key1b : Nat
  key1c : Nat
  key1d : Nat
  value : Option (SyncValues α)
deriving DecidableEq, Repr

/-- Model of `SyncTableEntry::EMPTY`. -/
def SyncSlot.emptySlot (α : Type) : SyncSlot α := ⟨0, 1, 1, 1, 1, 1, 1, none⟩

/-- The key that `get`/`fill`/`take` reconstruct from the state word's
two halves (`key00`) and the slot's key cells. -/
def SyncSlot.rebuildKey (s : SyncSlot α) (u0 u1 : Nat) : Key :=
  ⟨u0, u1, s.key01a, s.key01b, s.key1a, s.key1b, s.key1c, s.key1d⟩

/-- Result of a sequential `get`/`take` on a sync slot; `invalid`
stands for the executions a sequential run can never complete: the
`expect`/`unreachable` panics on an undecodable state, a read of the
uninitialized value, and the spin-wait on `ModificationInProgress`
(which, with no other thread to finish the fill, never ends). -/
inductive SyncLookup (α : Type) where
  | vacant
  | occupied (k : Key) (v : SyncValues α)
  | invalid
deriving DecidableEq, Repr

/-- Model of `SyncTableEntry::get` at its sequential semantics. -/
def SyncSlot.get (s : SyncSlot α) : SyncLookup α :=
  match State.decode s.state with
  | some .empty => .vacant
  | some (.full u0 u1) =>
      match s.value with
      | some v => .occupied (s.rebuildKey u0 u1) v
      | none => .invalid
  | some .modificationInProgress => .invalid
  | none => .invalid

/-- Outcome of a sequential `fill` on a sync slot (`invalid` as in
`SyncLookup`). -/
inductive SyncFillOutcome (α : Type) where
  | ok (entry : SyncValues α)
  | alreadyFull (passedInValue : SyncValues α) (entryKey : Key)
      (entryValue : SyncValues α)
  | invalid (passedInValue : SyncValues α)
deriving DecidableEq, Repr

/-- Model of `SyncTableEntry::fill` at its sequential semantics: the
compare-exchange from `Empty` succeeds exactly when the state is
`Empty`; the slot then receives the key cells and the value and
publishes `Full{key00}`.  On a `Full` state it rebuilds the occupying
key and returns `AlreadyFull` with the caller's value, changing
nothing. -/
def SyncSlot.fill (s : SyncSlot α) (k : Key) (v : SyncValues α) :
    SyncSlot α × SyncFillOutcome α :=
  match State.decode s.state with
  | some .empty =>
      (⟨State.encode (.full k.k000 k.k001),
        k.k010, k.k011, k.k100, k.k101, k.k110, k.k111, some v⟩, .ok v)
  | some (.full u0 u1) =>
      match s.value with
      | some ev => (s, .alreadyFull v (s.rebuildKey u0 u1) ev)
      | none => (s, .invalid v)
  | some .modificationInProgress => (s, .invalid v)
  | none => (s, .invalid v)

/-- Model of `SyncTableEntry::take`: on `Full`, store `Empty` and move the key
and value out; on `Empty`, `None`; `ModificationInProgress` is the
`unreachable!("invalid state")` panic. -/
def SyncSlot.take (s : SyncSlot α) : SyncSlot α × SyncLookup α :=
  match State.decode s.state with
  | some .empty => (s, .vacant)
  | some (.full u0 u1) =>
      match s.value with
      | some v =>
          ({ s with state := State.encode .empty, value := none },
            .occupied (s.rebuildKey u0 u1) v)
      | none => (s, .invalid)
  | some .modificationInProgress => (s, .invalid)
  | none => (s, .invalid)

/-! ## Concrete fixtures used by the witness theorems -/

/-- A sync value with early value `n` and unset late value. -/
def sVal (n : Nat) : SyncValues Nat := ⟨n, 0⟩

/-- A well-formed key whose last component is `n` (for small nonzero
`n`). -/
def wKey (n : Nat) : Key := ⟨1, 1, 1, 1, 1, 1, 1, n⟩

/-- A value whose early value is `n` and whose late value is unset. -/
def wVal (n : Nat) : Values Nat Nat := ⟨n, none⟩

/-- An occupied slot holding `(wKey n, wVal n)`. -/
def occSlot (n : Nat) : Slot Nat Nat := some (wKey n, wVal n)

/-- A capacity-8 table with search limit 4 whose hash function sends
every key to 0 and whose first four slots are occupied by four
distinct keys; slots 4–7 are free. -/
def tClash : HashTable Nat Nat :=
  ⟨[occSlot 1, occSlot 2, occSlot 3, occSlot 4, none, none, none, none],
    fun _ => 0, 4⟩

/-- A capacity-4 empty table with search limit 32 whose hash function
sends every key to 1. -/
def tEmpty4 : HashTable Nat Nat :=
  ⟨[none, none, none, none], fun _ => 1, 32⟩

/-- A capacity-2 empty table whose hash function sends every key
to 1: inserting leaves slot 0 empty in front of an occupied slot 1,
exposing the early stop of `drain`/`iter`. -/
def tEmpty2 : HashTable Nat Nat :=
  ⟨[none, none], fun _ => 1, 32⟩

/-! ## Lemmas about `nextPowerOfTwo` -/

theorem nptGo_isPow (fuel n : Nat) : ∃ k, nptGo fuel n = 2 ^ k := by
  induction fuel generalizing n with
  | zero => exact ⟨0, rfl⟩
  | succ fuel ih =>
    by_cases h : n ≤ 1
    · exact ⟨0, by simp [nptGo, h]⟩
    · obtain ⟨k, hk⟩ := ih ((n + 1) / 2)
      exact ⟨k + 1, by simp [nptGo, h, hk]; ring⟩

theorem nptGo_ge (fuel n : Nat) (h : n ≤ fuel) : n ≤ nptGo fuel n := by
  induction fuel generalizing n with
  | zero => simp only [nptGo]; omega
  | succ fuel ih =>
    by_cases h1 : n ≤ 1
    · simp only [nptGo, if_pos h1]; omega
    · have hm : (n + 1) / 2 ≤ fuel := by omega
      have := ih ((n + 1) / 2) hm
      simp only [nptGo, if_neg h1]
      omega

theorem nptGo_min (fuel n j : Nat) (hfuel : n ≤ fuel) (h : n ≤ 2 ^ j) :
    nptGo fuel n ≤ 2 ^ j := by
  induction fuel generalizing n j with
  | zero =>
    have : n = 0 := by omega
    simp [nptGo, Nat.one_le_two_pow]
  | succ fuel ih =>
    by_cases h1 : n ≤ 1
    · simp [nptGo, h1, Nat.one_le_two_pow]
    · have hj : 1 ≤ j := by
        by_contra hj
        interval_cases j <;> omega
      obtain ⟨j', rfl⟩ : ∃ j', j = j' + 1 := ⟨j - 1, by omega⟩
      have hpow : 2 ^ (j' + 1) = 2 * 2 ^ j' := by ring
      have hm2 : (n + 1) / 2 ≤ 2 ^ j' := by omega
      have hmf : (n + 1) / 2 ≤ fuel := by omega
      have := ih ((n + 1) / 2) j' hmf hm2
      simp only [nptGo, if_neg h1]
      omega

theorem nextPowerOfTwo_isPow (n : Nat) : ∃ k, nextPowerOfTwo n = 2 ^ k :=
  nptGo_isPow n n

theorem nextPowerOfTwo_ge (n : Nat) : n ≤ nextPowerOfTwo n :=
  nptGo_ge n n le_rfl

theorem nextPowerOfTwo_min (n j : Nat) (h : n ≤ 2 ^ j) :
    nextPowerOfTwo n ≤ 2 ^ j :=
  nptGo_min n n j le_rfl h

/-- C9: for every requested capacity, construction yields as actual
capacity the least power of two `≥` the request (panicking — `none` —
exactly when that rounding overflows the machine word), all slots
start empty, and `with_hasher`/`new` default the insert search limit
to 32. -/
theorem construction_spec (α β : Type) (reqCapacity limit : Nat)
    (hashFn : Key → Nat) :
    (∀ t, HashTable.withSearchLimitAndHasher α β reqCapacity limit hashFn
        = some t →
      (∃ k, t.capacity = 2 ^ k) ∧ reqCapacity ≤ t.capacity ∧
      (∀ j, reqCapacity ≤ 2 ^ j → t.capacity ≤ 2 ^ j) ∧
      (∀ i, t.slots.getD i none = none) ∧
      t.insertSearchLimit = limit) ∧
    (HashTable.withSearchLimitAndHasher α β reqCapacity limit hashFn = none
      ↔ 2 ^ 63 < reqCapacity) ∧
    (∀ t, HashTable.newTable α β reqCapacity hashFn = some t →
      t.insertSearchLimit = 32) := by
  refine ⟨?_, ?_, ?_⟩
  · intro t ht
    unfold HashTable.withSearchLimitAndHasher checkedNextPowerOfTwo at ht
    rcases le_or_lt reqCapacity (2 ^ 63) with hc | hc
    · rw [if_pos hc] at ht
      cases ht
      refine ⟨?_, ?_, ?_, ?_, rfl⟩
      · simpa [HashTable.capacity] using nextPowerOfTwo_isPow reqCapacity
      · simpa [HashTable.capacity] using nextPowerOfTwo_ge reqCapacity
      · intro j hj
        simpa [HashTable.capacity] using nextPowerOfTwo_min reqCapacity j hj
      · intro i
        simp [List.getD]
    · rw [if_neg (by omega)] at ht
      exact Option.noConfusion ht
  · unfold HashTable.withSearchLimitAndHasher checkedNextPowerOfTwo
    rcases le_or_lt reqCapacity (2 ^ 63) with hc | hc
    · rw [if_pos hc]
      exact ⟨fun hcontra => Option.noConfusion hcontra, fun hgt => by omega⟩
    · rw [if_neg (by omega)]
      exact ⟨fun _ => hc, fun _ => rfl⟩
  · intro t ht
    unfold HashTable.newTable HashTable.withHasher
      HashTable.withSearchLimitAndHasher checkedNextPowerOfTwo at ht
    rcases le_or_lt reqCapacity (2 ^ 63) with hc | hc
    · rw [if_pos hc] at ht
      cases ht
      rfl
    · rw [if_neg (by omega)] at ht
      exact Option.noConfusion ht

/-- Witness for `construction_spec`: requested capacity 5 rounds up to
actual capacity 8, slots empty, the given search limit is kept, and
`new` defaults the limit to 32. -/
theorem construction_spec_witness :
    ∃ t : HashTable Nat Nat,
      HashTable.withSearchLimitAndHasher Nat Nat 5 7 (fun _ => 0) = some t ∧
      5 ≤ t.capacity ∧ (∀ j, 5 ≤ 2 ^ j → t.capacity ≤ 2 ^ j) ∧
      t.slots.getD 0 none = none ∧ t.insertSearchLimit = 7 ∧
      (∀ u : HashTable Nat Nat,
        HashTable.newTable Nat Nat 5 (fun _ => 0) = some u →
        u.insertSearchLimit = 32) := by
  have h := construction_spec Nat Nat 5 7 (fun _ => 0)
  have hnew := (construction_spec Nat Nat 5 32 (fun _ => 0)).2.2
  refine ⟨⟨List.replicate 8 none, fun _ => 0, 7⟩, rfl, ?_⟩
  have hsp := h.1 ⟨List.replicate 8 none, fun _ => 0, 7⟩ rfl
  exact ⟨hsp.2.1, hsp.2.2.1, hsp.2.2.2.1 0, hsp.2.2.2.2, hnew⟩


variable {α β : Type}

/-! ## Helper lemmas on slot arrays and probe lists -/

theorem getD_set_self (slots : List (Slot α β)) (i : Nat) (s : Slot α β)
    (h : i < slots.length) : (slots.set i s).getD i none = s := by
  simp [List.getD_eq_getElem?_getD, List.getElem?_set_self h]

theorem getD_set_ne (slots : List (Slot α β)) (i j : Nat) (s : Slot α β)
    (h : i ≠ j) : (slots.set i s).getD j none = slots.getD j none := by
  simp [List.getD_eq_getElem?_getD, List.getElem?_set_ne h]

theorem probeList_mem_le (mask start n : Nat) (hs : start ≤ mask) :
    ∀ i ∈ probeList mask start n, i ≤ mask := by
  induction n generalizing start with
  | zero => intro i hi; simp [probeList] at hi
  | succ n ih =>
    intro i hi
    simp only [probeList, List.mem_cons] at hi
    rcases hi with rfl | hi
    · exact hs
    · exact ih (probeStep mask start) (Nat.and_le_right) i hi

theorem probeList_extends (mask start : Nat) (m n : Nat) (h : m ≤ n) :
    ∃ ext, probeList mask start n = probeList mask start m ++ ext := by
  induction m generalizing start n with
  | zero => exact ⟨probeList mask start n, by simp [probeList]⟩
  | succ m ih =>
    obtain ⟨n', rfl⟩ : ∃ n', n = n' + 1 := ⟨n - 1, by omega⟩
    obtain ⟨ext, hext⟩ := ih (probeStep mask start) n' (by omega)
    exact ⟨ext, by simp [probeList, hext]⟩

/-! ## Unfoldings of the `insert` probe loop -/

theorem insertAux_nil (slots : List (Slot α β)) (k : Key) (v : Values α β) :
    insertAux slots k v [] = (slots, .tableFullOrSearchLimitHit v) := rfl

theorem insertAux_cons_empty (slots : List (Slot α β)) (k : Key)
    (v : Values α β) (i : Nat) (rest : List Nat)
    (hslot : slots.getD i none = none) :
    insertAux slots k v (i :: rest) = (slots.set i (some (k, v)), .ok v) := by
  simp only [insertAux]
  rw [hslot]
  rfl

theorem insertAux_cons_occupied (slots : List (Slot α β)) (k : Key)
    (v : Values α β) (i : Nat) (rest : List Nat) (ek : Key) (e : Values α β)
    (hslot : slots.getD i none = some (ek, e)) :
    insertAux slots k v (i :: rest) =
      if ek = k then (slots, .alreadyInTable v e)
      else insertAux slots k v rest := by
  simp only [insertAux]
  rw [hslot]
  rfl

/-! ## Characterizations of the `insert` probe loop -/

theorem insertAux_ok (slots : List (Slot α β)) (k : Key) (v : Values α β)
    (L : List Nat) (ev : Values α β)
    (h : (insertAux slots k v L).2 = .ok ev) :
    ev = v ∧ ∃ pre i suf, L = pre ++ i :: suf ∧
      (∀ p ∈ pre, ∃ ek e, slots.getD p none = some (ek, e) ∧ ek ≠ k) ∧
      slots.getD i none = none ∧
      (insertAux slots k v L).1 = slots.set i (some (k, v)) := by
  induction L with
  | nil => simp [insertAux_nil] at h
  | cons i rest ih =>
    rcases hslot : slots.getD i none with _ | ⟨ek, e⟩
    · rw [insertAux_cons_empty slots k v i rest hslot] at h ⊢
      simp only at h
      cases h
      exact ⟨rfl, [], i, rest, by simp, by simp, hslot, rfl⟩
    · by_cases hk : ek = k
      · rw [insertAux_cons_occupied slots k v i rest ek e hslot, if_pos hk] at h
        simp at h
      · rw [insertAux_cons_occupied slots k v i rest ek e hslot, if_neg hk] at h ⊢
        obtain ⟨hev, pre, j, suf, hL, hpre, hj, hres⟩ := ih h
        refine ⟨hev, i :: pre, j, suf, by simp [hL], ?_, hj, hres⟩
        intro p hp
        rcases List.mem_cons.mp hp with rfl | hp
        · exact ⟨ek, e, hslot, hk⟩
        · exact hpre p hp

theorem insertAux_already (slots : List (Slot α β)) (k : Key)
    (v : Values α β) (L : List Nat) (pv ev : Values α β)
    (h : (insertAux slots k v L).2 = .alreadyInTable pv ev) :
    pv = v ∧ (insertAux slots k v L).1 = slots ∧
      ∃ i ∈ L, slots.getD i none = some (k, ev) := by
  induction L with
  | nil => simp [insertAux_nil] at h
  | cons i rest ih =>
    rcases hslot : slots.getD i none with _ | ⟨ek, e⟩
    · rw [insertAux_cons_empty slots k v i rest hslot] at h
      simp at h
    · by_cases hk : ek = k
      · rw [insertAux_cons_occupied slots k v i rest ek e hslot, if_pos hk]
          at h ⊢
        simp only at h
        obtain ⟨h1, h2⟩ := InsertResult.alreadyInTable.inj h
        exact ⟨h1.symm, rfl, i, by simp, by rw [hk, h2] at hslot; exact hslot⟩
      · rw [insertAux_cons_occupied slots k v i rest ek e hslot, if_neg hk]
          at h ⊢
        obtain ⟨hpv, hsl, j, hj, hslotj⟩ := ih h
        exact ⟨hpv, hsl, j, List.mem_cons_of_mem i hj, hslotj⟩

theorem insertAux_limit (slots : List (Slot α β)) (k : Key)
    (v : Values α β) (L : List Nat) (pv : Values α β)
    (h : (insertAux slots k v L).2 = .tableFullOrSearchLimitHit pv) :
    pv = v ∧ (insertAux slots k v L).1 = slots ∧
      ∀ i ∈ L, ∃ ek e, slots.getD i none = some (ek, e) ∧ ek ≠ k := by
  induction L with
  | nil =>
    rw [insertAux_nil] at h ⊢
    simp only at h
    cases h
    exact ⟨rfl, rfl, by simp⟩
  | cons i rest ih =>
    rcases hslot : slots.getD i none with _ | ⟨ek, e⟩
    · rw [insertAux_cons_empty slots k v i rest hslot] at h
      simp at h
    · by_cases hk : ek = k
      · rw [insertAux_cons_occupied slots k v i rest ek e hslot, if_pos hk] at h
        simp at h
      · rw [insertAux_cons_occupied slots k v i rest ek e hslot, if_neg hk]
          at h ⊢
        obtain ⟨hpv, hsl, hall⟩ := ih h
        refine ⟨hpv, hsl, ?_⟩
        intro p hp
        rcases List.mem_cons.mp hp with rfl | hp
        · exact ⟨ek, e, hslot, hk⟩
        · exact hall p hp

theorem insertAux_of_all_occupied (slots : List (Slot α β)) (k : Key)
    (v : Values α β) (L : List Nat)
    (h : ∀ i ∈ L, ∃ ek e, slots.getD i none = some (ek, e) ∧ ek ≠ k) :
    insertAux slots k v L = (slots, .tableFullOrSearchLimitHit v) := by
  induction L with
  | nil => rfl
  | cons i rest ih =>
    obtain ⟨ek, e, hslot, hk⟩ := h i (by simp)
    rw [insertAux_cons_occupied slots k v i rest ek e hslot, if_neg hk]
    exact ih fun p hp => h p (List.mem_cons_of_mem i hp)



variable {α β : Type}

theorem insert_slots_eq (t : HashTable α β) (k : Key) (v : Values α β) :
    (t.insert k v).1.slots
      = (insertAux t.slots k v (t.tableIndexes k t.insertSearchLimit)).1 := rfl

theorem insert_snd_eq (t : HashTable α β) (k : Key) (v : Values α β) :
    (t.insert k v).2
      = (insertAux t.slots k v (t.tableIndexes k t.insertSearchLimit)).2 := rfl

theorem insert_table_eq_of_slots_eq (t : HashTable α β) (k : Key)
    (v : Values α β)
    (h : (insertAux t.slots k v (t.tableIndexes k t.insertSearchLimit)).1
      = t.slots) :
    (t.insert k v).1 = t := by
  show ({ t with slots := _ } : HashTable α β) = t
  rw [h]

/-- C1: `insert(key, value)` has exactly three outcomes.  `Ok` fills a
probe slot that was previously empty with exactly the caller's key and
value and returns the stored value; `AlreadyInTable` hands the
caller's value back unchanged together with the value already stored
under the same key, and modifies no stored entry; and
`TableFullOrSearchLimitHit` hands the caller's value back unchanged
and modifies no stored entry. -/
theorem insert_three_outcomes (t : HashTable α β) (k : Key) (v : Values α β) :
    match (t.insert k v).2 with
    | .ok entryValue =>
        entryValue = v ∧
        ∃ i ∈ t.tableIndexes k t.insertSearchLimit,
          t.slots.getD i none = none ∧
          (t.insert k v).1.slots = t.slots.set i (some (k, v))
    | .alreadyInTable passedInValue entryValue =>
        passedInValue = v ∧ (t.insert k v).1 = t ∧
        ∃ i ∈ t.tableIndexes k t.insertSearchLimit,
          t.slots.getD i none = some (k, entryValue)
    | .tableFullOrSearchLimitHit passedInValue =>
        passedInValue = v ∧ (t.insert k v).1 = t := by
  rcases hr : (t.insert k v).2 with ev | ⟨pv, ev⟩ | pv
  · obtain ⟨hev, pre, i, suf, hL, hpre, hi, hres⟩ :=
      insertAux_ok t.slots k v (t.tableIndexes k t.insertSearchLimit) ev
        ((insert_snd_eq t k v).symm.trans hr)
    exact ⟨hev, i, by rw [hL]; simp, hi, (insert_slots_eq t k v).trans hres⟩
  · obtain ⟨hpv, hsl, i, hiL, hslot⟩ :=
      insertAux_already t.slots k v (t.tableIndexes k t.insertSearchLimit)
        pv ev ((insert_snd_eq t k v).symm.trans hr)
    exact ⟨hpv, insert_table_eq_of_slots_eq t k v hsl, i, hiL, hslot⟩
  · obtain ⟨hpv, hsl, _⟩ :=
      insertAux_limit t.slots k v (t.tableIndexes k t.insertSearchLimit)
        pv ((insert_snd_eq t k v).symm.trans hr)
    exact ⟨hpv, insert_table_eq_of_slots_eq t k v hsl⟩



variable {α β : Type}

/-! ## Characterizations of the `find` probe loop -/

theorem findAux_nil (slots : List (Slot α β)) (k : Key) :
    findAux slots k [] = none := rfl

theorem findAux_cons_empty (slots : List (Slot α β)) (k : Key) (i : Nat)
    (rest : List Nat) (hslot : slots.getD i none = none) :
    findAux slots k (i :: rest) = none := by
  simp only [findAux]
  rw [hslot]
  rfl

theorem findAux_cons_occupied (slots : List (Slot α β)) (k : Key) (i : Nat)
    (rest : List Nat) (ek : Key) (e : Values α β)
    (hslot : slots.getD i none = some (ek, e)) :
    findAux slots k (i :: rest)
      = if ek = k then some e else findAux slots k rest := by
  simp only [findAux]
  rw [hslot]
  rfl

theorem findAux_app_found (slots : List (Slot α β)) (k : Key)
    (pre : List Nat) (i : Nat) (suf : List Nat) (e : Values α β)
    (hpre : ∀ p ∈ pre, ∃ ek e', slots.getD p none = some (ek, e') ∧ ek ≠ k)
    (hi : slots.getD i none = some (k, e)) :
    findAux slots k (pre ++ i :: suf) = some e := by
  induction pre with
  | nil =>
    rw [List.nil_append, findAux_cons_occupied slots k i suf k e hi, if_pos rfl]
  | cons p pre ih =>
    obtain ⟨ek, e', hslot, hk⟩ := hpre p (by simp)
    rw [List.cons_append, findAux_cons_occupied slots k p _ ek e' hslot,
      if_neg hk]
    exact ih fun q hq => hpre q (List.mem_cons_of_mem p hq)

theorem findAux_none_of_absent (slots : List (Slot α β)) (k : Key)
    (L : List Nat)
    (h : ∀ i ∈ L, ∀ e, slots.getD i none ≠ some (k, e)) :
    findAux slots k L = none := by
  induction L with
  | nil => rfl
  | cons i rest ih =>
    rcases hslot : slots.getD i none with _ | ⟨ek, e⟩
    · exact findAux_cons_empty slots k i rest hslot
    · have hk : ek ≠ k := by
        intro hkk
        exact h i (by simp) e (by rw [hslot, hkk])
      rw [findAux_cons_occupied slots k i rest ek e hslot, if_neg hk]
      exact ih fun q hq => h q (List.mem_cons_of_mem i hq)

/-- C8: if a key `D` is nowhere in the table and every slot of its
bounded insert probe window is occupied by a different key, then
`insert(D, v)` returns `TableFullOrSearchLimitHit` handing `v` back
and leaves the table unchanged, and `find(D)` on the resulting table
returns `None`. -/
theorem insert_probe_window_full (t : HashTable α β) (k : Key)
    (v : Values α β)
    (hwin : ∀ i ∈ t.tableIndexes k t.insertSearchLimit,
      ∃ ek e, t.slots.getD i none = some (ek, e) ∧ ek ≠ k)
    (habsent : ∀ i, i < t.capacity → ∀ e, t.slots.getD i none ≠ some (k, e)) :
    (t.insert k v).2 = .tableFullOrSearchLimitHit v ∧
    (t.insert k v).1 = t ∧
    (t.insert k v).1.find k = none := by
  have haux := insertAux_of_all_occupied t.slots k v
    (t.tableIndexes k t.insertSearchLimit) hwin
  have h2 : (t.insert k v).2 = .tableFullOrSearchLimitHit v := by
    rw [insert_snd_eq, haux]
  have h1 : (t.insert k v).1 = t :=
    insert_table_eq_of_slots_eq t k v (by rw [haux])
  refine ⟨h2, h1, ?_⟩
  rw [h1]
  show findAux t.slots k (t.tableIndexes k usizeMax) = none
  apply findAux_none_of_absent
  intro i hi
  rcases Nat.eq_zero_or_pos t.capacity with hc | hc
  · rw [HashTable.tableIndexes, hc] at hi
    simp [probeList] at hi
  · have hle : i ≤ t.capacity - 1 :=
      probeList_mem_le (t.capacity - 1) (t.startIndex k) _
        Nat.and_le_right i hi
    exact habsent i (by omega)



variable {α β : Type}

/-! ## Persistence of occupied slots under later operations -/

theorem insertAux_shape (slots : List (Slot α β)) (k : Key) (v : Values α β)
    (L : List Nat) :
    (insertAux slots k v L).1 = slots ∨
    ∃ i, slots.getD i none = none ∧
      (insertAux slots k v L).1 = slots.set i (some (k, v)) := by
  induction L with
  | nil => left; rfl
  | cons i rest ih =>
    rcases hslot : slots.getD i none with _ | ⟨ek, e⟩
    · right
      exact ⟨i, hslot, by rw [insertAux_cons_empty slots k v i rest hslot]⟩
    · by_cases hk : ek = k
      · left
        rw [insertAux_cons_occupied slots k v i rest ek e hslot, if_pos hk]
      · rw [insertAux_cons_occupied slots k v i rest ek e hslot, if_neg hk]
        exact ih

theorem insertAux_preserves_occupied (slots : List (Slot α β)) (k : Key)
    (v : Values α β) (L : List Nat) (j : Nat) (e : Key × Values α β)
    (hj : slots.getD j none = some e) :
    (insertAux slots k v L).1.getD j none = some e := by
  rcases insertAux_shape slots k v L with h | ⟨i, hi, h⟩
  · rw [h]; exact hj
  · rw [h]
    have hne : i ≠ j := fun hij => by rw [hij, hj] at hi; cases hi
    rw [getD_set_ne _ _ _ _ hne]; exact hj

theorem insertAux_length (slots : List (Slot α β)) (k : Key)
    (v : Values α β) (L : List Nat) :
    (insertAux slots k v L).1.length = slots.length := by
  rcases insertAux_shape slots k v L with h | ⟨i, _, h⟩ <;> rw [h] <;> simp

theorem getOrInsert_fst (t : HashTable α β) (k : Key) (v : Values α β) :
    (t.getOrInsert k v).1 = (t.insert k v).1 := by
  rcases h : t.insert k v with ⟨t', r⟩
  cases r <;> simp [HashTable.getOrInsert, h]

theorem applyOp_hashFn (t : HashTable α β) (op : TableOp α β) :
    (t.applyOp op).hashFn = t.hashFn := by
  cases op with
  | insertOp k v => rfl
  | getOrInsertOp k v =>
    show ((t.getOrInsert k v).1).hashFn = _
    rw [getOrInsert_fst]
    rfl

theorem applyOp_capacity (t : HashTable α β) (op : TableOp α β) :
    (t.applyOp op).capacity = t.capacity := by
  cases op with
  | insertOp k v =>
    show ((t.insert k v).1).capacity = _
    rw [HashTable.capacity, HashTable.capacity, insert_slots_eq,
      insertAux_length]
  | getOrInsertOp k v =>
    show ((t.getOrInsert k v).1).capacity = _
    rw [getOrInsert_fst, HashTable.capacity, HashTable.capacity,
      insert_slots_eq, insertAux_length]

theorem applyOp_occupied (t : HashTable α β) (op : TableOp α β) (j : Nat)
    (e : Key × Values α β) (hj : t.slots.getD j none = some e) :
    (t.applyOp op).slots.getD j none = some e := by
  cases op with
  | insertOp k v =>
    show ((t.insert k v).1).slots.getD j none = some e
    rw [insert_slots_eq]
    exact insertAux_preserves_occupied _ _ _ _ _ _ hj
  | getOrInsertOp k v =>
    show ((t.getOrInsert k v).1).slots.getD j none = some e
    rw [getOrInsert_fst, insert_slots_eq]
    exact insertAux_preserves_occupied _ _ _ _ _ _ hj

theorem runOps_hashFn (t : HashTable α β) (ops : List (TableOp α β)) :
    (t.runOps ops).hashFn = t.hashFn := by
  induction ops generalizing t with
  | nil => rfl
  | cons op ops ih =>
    show ((t.applyOp op).runOps ops).hashFn = _
    rw [ih, applyOp_hashFn]

theorem runOps_capacity (t : HashTable α β) (ops : List (TableOp α β)) :
    (t.runOps ops).capacity = t.capacity := by
  induction ops generalizing t with
  | nil => rfl
  | cons op ops ih =>
    show ((t.applyOp op).runOps ops).capacity = _
    rw [ih, applyOp_capacity]

theorem runOps_occupied (t : HashTable α β) (ops : List (TableOp α β))
    (j : Nat) (e : Key × Values α β)
    (hj : t.slots.getD j none = some e) :
    (t.runOps ops).slots.getD j none = some e := by
  induction ops generalizing t with
  | nil => exact hj
  | cons op ops ih =>
    show ((t.applyOp op).runOps ops).slots.getD j none = some e
    exact ih _ (applyOp_occupied t op j e hj)

/-- C2: a key accepted by `insert` (`Ok`) remains findable: after any
later sequence of `insert`/`get_or_insert` calls (and no drain),
`find` returns exactly the value stored for it at insertion time; the
linear probe of `find` reaches the key's slot before any empty slot. -/
theorem find_after_insert_ok (t : HashTable α β) (k : Key) (v : Values α β)
    (ops : List (TableOp α β)) (ev : Values α β)
    (hcap : t.capacity ≤ usizeMax)
    (hok : (t.insert k v).2 = .ok ev) :
    (((t.insert k v).1).runOps ops).find k = some v := by
  obtain ⟨hev, pre, i, suf, hL, hpre, hi, hres⟩ :=
    insertAux_ok t.slots k v (t.tableIndexes k t.insertSearchLimit) ev
      ((insert_snd_eq t k v).symm.trans hok)
  have ht1slots : ((t.insert k v).1).slots = t.slots.set i (some (k, v)) :=
    (insert_slots_eq t k v).trans hres
  have ht1hash : ((t.insert k v).1).hashFn = t.hashFn := rfl
  have ht1cap : ((t.insert k v).1).capacity = t.capacity := by
    rw [HashTable.capacity, ht1slots, List.length_set]; rfl
  have hiL : i ∈ t.tableIndexes k t.insertSearchLimit := by rw [hL]; simp
  have hcappos : 0 < t.capacity := by
    by_contra h0
    have hz : t.capacity = 0 := by omega
    rw [HashTable.tableIndexes, hz] at hiL
    simp [probeList] at hiL
  have hile : i ≤ t.capacity - 1 :=
    probeList_mem_le (t.capacity - 1) (t.startIndex k) _
      Nat.and_le_right i hiL
  have hilt : i < t.slots.length := by
    rw [show t.slots.length = t.capacity from rfl]; omega
  set t2 := ((t.insert k v).1).runOps ops with ht2
  have ht2hash : t2.hashFn = t.hashFn := by rw [ht2, runOps_hashFn, ht1hash]
  have ht2cap : t2.capacity = t.capacity := by rw [ht2, runOps_capacity, ht1cap]
  have ht1i : ((t.insert k v).1).slots.getD i none = some (k, v) := by
    rw [ht1slots]; exact getD_set_self _ _ _ hilt
  have ht2i : t2.slots.getD i none = some (k, v) :=
    runOps_occupied _ _ _ _ ht1i
  have ht2pre : ∀ p ∈ pre, ∃ ek e',
      t2.slots.getD p none = some (ek, e') ∧ ek ≠ k := by
    intro p hp
    obtain ⟨ek, e', hpe, hkne⟩ := hpre p hp
    have hne : i ≠ p := fun hip => by rw [hip, hpe] at hi; cases hi
    have ht1p : ((t.insert k v).1).slots.getD p none = some (ek, e') := by
      rw [ht1slots, getD_set_ne _ _ _ _ hne]; exact hpe
    exact ⟨ek, e', runOps_occupied _ _ _ _ ht1p, hkne⟩
  have hstart2 : t2.startIndex k = t.startIndex k := by
    rw [HashTable.startIndex, HashTable.startIndex, ht2hash, ht2cap]
  have hfindL : t2.tableIndexes k usizeMax
      = probeList (t.capacity - 1) (t.startIndex k) t.capacity := by
    rw [HashTable.tableIndexes, ht2cap, hstart2, min_eq_left hcap]
  obtain ⟨ext, hext⟩ := probeList_extends (t.capacity - 1) (t.startIndex k)
    (min t.capacity t.insertSearchLimit) t.capacity (min_le_left _ _)
  have hsplit : t2.tableIndexes k usizeMax = pre ++ i :: (suf ++ ext) := by
    rw [hfindL, hext]
    rw [show probeList (t.capacity - 1) (t.startIndex k)
        (min t.capacity t.insertSearchLimit)
      = t.tableIndexes k t.insertSearchLimit from rfl, hL]
    simp
  rw [HashTable.find, hsplit]
  exact findAux_app_found t2.slots k pre i (suf ++ ext) v ht2pre ht2i



variable {α β : Type}

/-- C3: `get_or_insert` wraps `insert` exactly: it succeeds precisely
when `insert` returns `Ok` or `AlreadyInTable`, referencing the same
stored entry value and carrying the caller's value back (as `Some`)
exactly in the already-present case; it fails precisely when `insert`
returns `TableFullOrSearchLimitHit`, handing the caller's value back. -/
theorem getOrInsert_wraps_insert (t : HashTable α β) (k : Key)
    (v : Values α β) :
    (t.getOrInsert k v).1 = (t.insert k v).1 ∧
    (t.getOrInsert k v).2 =
      (match (t.insert k v).2 with
        | .ok entryValue => .ok none entryValue
        | .alreadyInTable passedInValue entryValue =>
            .ok (some passedInValue) entryValue
        | .tableFullOrSearchLimitHit passedInValue =>
            .tableFullOrSearchLimitHit passedInValue) := by
  rcases h : t.insert k v with ⟨t', r⟩
  cases r <;> simp [HashTable.getOrInsert, h]

/-- C4 (code-bug exhibit): after inserting a key that probes to slot 1
of a capacity-2 table, slot 0 is empty and the entry is stored and
findable; yet `drain` yields *no* pairs — its iterator's
`next() = entry_iter.next().and_then(take)` returns `None` at the
first empty slot — and afterwards `find` still returns the entry, so
the table is not left empty. -/
theorem drain_stops_at_first_empty_slot :
    ((tEmpty2.insert (wKey 1) (wVal 1)).1).find (wKey 1) = some (wVal 1) ∧
    ((tEmpty2.insert (wKey 1) (wVal 1)).1.drain).1 = [] ∧
    (((tEmpty2.insert (wKey 1) (wVal 1)).1.drain).2).find (wKey 1)
      = some (wVal 1) := by decide

/-- C5 (code-bug exhibit): in the same state, `iter` — whose
`next() = entry_iter.next().and_then(get)` also stops at the first
empty slot — yields no pairs although an occupied slot holds a stored,
findable entry. -/
theorem iter_stops_at_first_empty_slot :
    ((tEmpty2.insert (wKey 1) (wVal 1)).1).find (wKey 1) = some (wVal 1) ∧
    ((tEmpty2.insert (wKey 1) (wVal 1)).1).iterPairs = [] := by decide

/-- C6 counterexample: the late value of an entry *can* be changed
after being set: `set_late_value(None)` returns an already-set late
value to unset (the setter stores whatever option it is given). -/
theorem set_late_value_can_unset :
    Values.late_value (Values.new (0 : Nat) (some (5 : Nat))) = some 5 ∧
    Values.late_value
      (Values.set_late_value (Values.new (0 : Nat) (some (5 : Nat))) none)
      = none := by decide

/-- C6 amended: once a slot is occupied, `get` and `fill` leave its
key, early value and late value unchanged (`fill` fails with
`AlreadyFull` and modifies nothing); but `set_late_value` (on either
backend) simply replaces the late value with its argument — including
overwriting a set value or unsetting it — leaving only the early
value intact, so the unset→set-once discipline is a caller
convention, not enforced by the slot. -/
theorem occupied_slot_immutability :
    (∀ (α β : Type) (s : Slot α β) (k : Key) (v : Values α β) (ek : Key)
        (ev : Values α β), s = some (ek, ev) →
      (Slot.fill s k v).1 = s ∧ Slot.get s = some (ek, ev)) ∧
    (∀ (α β : Type) (v : Values α β) (l : Option β),
      (Values.set_late_value v l).early_value = v.early_value ∧
      (Values.set_late_value v l).late_value = l) ∧
    (∀ (α : Type) (v : SyncValues α) (l : Option Nat),
      (SyncValues.set_late_value v l).early_value = v.early_value ∧
      ((∀ x, l = some x → 0 < x) →
        (SyncValues.set_late_value v l).late_value = l)) := by
  refine ⟨?_, ?_, ?_⟩
  · rintro α β s k v ek ev rfl
    exact ⟨rfl, rfl⟩
  · intro α β v l
    exact ⟨rfl, rfl⟩
  · intro α v l
    refine ⟨rfl, ?_⟩
    intro hl
    cases l with
    | none => rfl
    | some x =>
      have hx : 0 < x := hl x rfl
      simp [SyncValues.set_late_value, SyncValues.late_value]
      omega

/-- Witness for `occupied_slot_immutability` at concrete inputs. -/
theorem occupied_slot_immutability_witness :
    (Slot.fill (some (wKey 1, wVal 1)) (wKey 2) (wVal 2)).1
      = some (wKey 1, wVal 1) ∧
    (SyncValues.set_late_value (sVal 3) (some 5)).late_value = some 5 := by
  refine ⟨(occupied_slot_immutability.1 Nat Nat _ (wKey 2) (wVal 2)
    (wKey 1) (wVal 1) rfl).1, ?_⟩
  have h := (occupied_slot_immutability.2.2 Nat (sVal 3) (some 5)).2
  exact h fun x hx => by cases hx; omega



theorem decode_encode_full (a b : Nat) (ha0 : 0 < a) (ha : a < 2 ^ 32)
    (hb0 : 0 < b) (hb : b < 2 ^ 32) :
    State.decode (State.encode (.full a b)) = some (.full a b) := by
  have hne0 : pack_u64 a b ≠ State.EMPTY_U64 := by
    unfold pack_u64 State.EMPTY_U64 pack_u64
    omega
  have hne1 : pack_u64 a b ≠ State.MODIFICATION_IN_PROGRESS_U64 := by
    unfold pack_u64 State.MODIFICATION_IN_PROGRESS_U64 pack_u64
    omega
  unfold State.decode State.encode
  rw [if_neg hne0, if_neg hne1]
  have hu : unpack_u64 (pack_u64 a b) = (a, b) := by
    unfold unpack_u64 pack_u64
    have hm : (a + b * 2 ^ 32) % 2 ^ 32 = a := by omega
    have hd : (a + b * 2 ^ 32) / 2 ^ 32 % 2 ^ 32 = b := by omega
    rw [hm, hd]
  rw [hu]
  simp only []
  rw [if_neg (by omega)]

/-- C10: the packed 64-bit state word is unambiguous: for a
well-formed key the `Full` encoding (packing the key's first two
nonzero halves) differs from the `Empty` and
`ModificationInProgress` encodings, and decoding the encoding of any
well-formed state — every word `empty`, `fill` or `take` ever stores —
returns exactly that state, never the "invalid state" panic. -/
theorem state_word_unambiguous :
    (∀ k : Key, k.Wf →
      State.encode (.full k.k000 k.k001) ≠ State.EMPTY_U64 ∧
      State.encode (.full k.k000 k.k001)
        ≠ State.MODIFICATION_IN_PROGRESS_U64) ∧
    (∀ s : State, s.Wf → State.decode (State.encode s) = some s) := by
  constructor
  · intro k hk
    obtain ⟨h0, h1, h2, h3, _⟩ := hk
    constructor
    · show pack_u64 k.k000 k.k001 ≠ State.EMPTY_U64
      unfold pack_u64 State.EMPTY_U64 pack_u64
      omega
    · show pack_u64 k.k000 k.k001 ≠ State.MODIFICATION_IN_PROGRESS_U64
      unfold pack_u64 State.MODIFICATION_IN_PROGRESS_U64 pack_u64
      omega
  · intro s hs
    cases s with
    | empty => rfl
    | modificationInProgress => rfl
    | full a b =>
      obtain ⟨h0, h1, h2, h3⟩ := hs
      exact decode_encode_full a b h0 h1 h2 h3

/-- Witness for `state_word_unambiguous` at a concrete key/state. -/
theorem state_word_unambiguous_witness :
    State.encode (.full 7 9) ≠ State.EMPTY_U64 ∧
    State.decode (State.encode (.full 7 9)) = some (.full 7 9) := by
  refine ⟨(state_word_unambiguous.1 ⟨7, 9, 1, 1, 1, 1, 1, 1⟩ (by decide)).1,
    state_word_unambiguous.2 (.full 7 9) ?_⟩
  show 0 < 7 ∧ 7 < 2 ^ 32 ∧ 0 < 9 ∧ 9 < 2 ^ 32
  decide

/-- C7: `fill(key, value)` returns `Ok` exactly when the slot was
empty, after which the slot holds exactly that key and entry; on an
already-occupied slot (same or different key) it returns
`AlreadyFull` carrying the occupying entry's key, the occupying
entry's value and the caller's value back unmodified, and the slot is
unchanged — on both the single-threaded and the concurrent backend. -/
theorem fill_spec :
    (∀ (α β : Type) (s : Slot α β) (k : Key) (v : Values α β),
      (s = none → Slot.fill s k v = (some (k, v), .ok v)) ∧
      (∀ ek ev, s = some (ek, ev) →
        Slot.fill s k v = (s, .alreadyFull v ek ev))) ∧
    (∀ (α : Type) (s : SyncSlot α) (k : Key) (v : SyncValues α),
      (s.state = State.EMPTY_U64 → k.Wf →
        (s.fill k v).2 = .ok v ∧ ((s.fill k v).1).get = .occupied k v) ∧
      (∀ u0 u1 ev, State.decode s.state = some (.full u0 u1) →
        s.value = some ev →
        s.fill k v = (s, .alreadyFull v (s.rebuildKey u0 u1) ev))) := by
  constructor
  · intro α β s k v
    constructor
    · rintro rfl; rfl
    · rintro ek ev rfl; rfl
  · intro α s k v
    constructor
    · intro hst hk
      have hdec : State.decode s.state = some .empty := by
        rw [hst]; rfl
      have hfill : s.fill k v =
          (⟨State.encode (.full k.k000 k.k001), k.k010, k.k011, k.k100,
            k.k101, k.k110, k.k111, some v⟩, .ok v) := by
        unfold SyncSlot.fill
        rw [hdec]
      refine ⟨by rw [hfill], ?_⟩
      rw [hfill]
      obtain ⟨h0, h1, h2, h3, _⟩ := hk
      unfold SyncSlot.get
      rw [decode_encode_full k.k000 k.k001 h0 h1 h2 h3]
      show SyncLookup.occupied (SyncSlot.rebuildKey _ k.k000 k.k001) v
        = SyncLookup.occupied k v
      unfold SyncSlot.rebuildKey
      rfl
    · intro u0 u1 ev hdec hval
      unfold SyncSlot.fill
      rw [hdec, hval]

/-- Witness for `fill_spec`: filling an empty slot of each backend
succeeds and stores the key; filling an occupied sync slot fails with
`AlreadyFull` and changes nothing. -/
theorem fill_spec_witness :
    Slot.fill (none : Slot Nat Nat) (wKey 1) (wVal 2)
      = (some (wKey 1, wVal 2), .ok (wVal 2)) ∧
    ((SyncSlot.emptySlot Nat).fill (wKey 1) (sVal 2)).2 = .ok (sVal 2) ∧
    (((SyncSlot.emptySlot Nat).fill (wKey 1) (sVal 2)).1).get
      = .occupied (wKey 1) (sVal 2) ∧
    (((SyncSlot.emptySlot Nat).fill (wKey 1) (sVal 2)).1).fill (wKey 2)
        (sVal 3)
      = (((SyncSlot.emptySlot Nat).fill (wKey 1) (sVal 2)).1,
          .alreadyFull (sVal 3)
            ((((SyncSlot.emptySlot Nat).fill (wKey 1) (sVal 2)).1).rebuildKey
              1 1) (sVal 2)) := by
  have hempty := (fill_spec.1 Nat Nat none (wKey 1) (wVal 2)).1 rfl
  have hsync := (fill_spec.2 Nat (SyncSlot.emptySlot Nat) (wKey 1)
    (sVal 2)).1 rfl (by decide)
  have hfull := (fill_spec.2 Nat
    (((SyncSlot.emptySlot Nat).fill (wKey 1) (sVal 2)).1) (wKey 2)
    (sVal 3)).2 1 1 (sVal 2) (by decide) (by decide)
  exact ⟨hempty, hsync.1, hsync.2, hfull⟩



/-- Witness for `find_after_insert_ok`: a key inserted into a
capacity-4 table stays findable (with its stored value) after two more
colliding operations. -/
theorem find_after_insert_ok_witness :
    ((tEmpty4.insert (wKey 1) (wVal 1)).1.runOps
      [.insertOp (wKey 2) (wVal 2), .getOrInsertOp (wKey 3) (wVal 3)]).find
        (wKey 1) = some (wVal 1) :=
  find_after_insert_ok tEmpty4 (wKey 1) (wVal 1)
    [.insertOp (wKey 2) (wVal 2), .getOrInsertOp (wKey 3) (wVal 3)]
    (wVal 1) (by decide) (by decide)

/-- Witness for `insert_probe_window_full`: in `tClash` (capacity 8,
search limit 4, all four probe-window slots occupied by other keys,
slots 4–7 free), inserting a fifth colliding key fails with
`TableFullOrSearchLimitHit` and the key is then not findable. -/
theorem insert_probe_window_full_witness :
    (tClash.insert (wKey 5) (wVal 5)).2
        = .tableFullOrSearchLimitHit (wVal 5) ∧
    (tClash.insert (wKey 5) (wVal 5)).1.find (wKey 5) = none := by
  have hL : tClash.tableIndexes (wKey 5) tClash.insertSearchLimit
      = [0, 1, 2, 3] := by decide
  have hwin : ∀ i ∈ tClash.tableIndexes (wKey 5) tClash.insertSearchLimit,
      ∃ ek e, tClash.slots.getD i none = some (ek, e) ∧ ek ≠ wKey 5 := by
    rw [hL]
    intro i hi
    fin_cases hi
    · exact ⟨wKey 1, wVal 1, rfl, by decide⟩
    · exact ⟨wKey 2, wVal 2, rfl, by decide⟩
    · exact ⟨wKey 3, wVal 3, rfl, by decide⟩
    · exact ⟨wKey 4, wVal 4, rfl, by decide⟩
  have habs : ∀ i, i < tClash.capacity → ∀ e,
      tClash.slots.getD i none ≠ some (wKey 5, e) := by
    intro i hi e h
    have h5 : (tClash.slots.getD i none).map Prod.fst = some (wKey 5) := by
      rw [h]; rfl
    have hi8 : i < 8 := hi
    clear h hi
    revert h5
    interval_cases i <;> decide
  have h := insert_probe_window_full tClash (wKey 5) (wVal 5) hwin habs
  exact ⟨h.1, h.2.2⟩



/-- Witness for `insert_three_outcomes`: a successful insert into the
empty capacity-4 table fills a previously empty probe slot. -/
theorem insert_three_outcomes_witness :
    ∃ i ∈ tEmpty4.tableIndexes (wKey 1) tEmpty4.insertSearchLimit,
      tEmpty4.slots.getD i none = none ∧
      (tEmpty4.insert (wKey 1) (wVal 1)).1.slots
        = tEmpty4.slots.set i (some (wKey 1, wVal 1)) := by
  have h := insert_three_outcomes tEmpty4 (wKey 1) (wVal 1)
  rw [show (tEmpty4.insert (wKey 1) (wVal 1)).2 = .ok (wVal 1) from by decide]
    at h
  exact h.2

/-- Witness for `getOrInsert_wraps_insert`: a fresh insert through
`get_or_insert` succeeds carrying nothing back. -/
theorem getOrInsert_wraps_insert_witness :
    (tEmpty4.getOrInsert (wKey 1) (wVal 1)).2 = .ok none (wVal 1) := by
  have h := (getOrInsert_wraps_insert tEmpty4 (wKey 1) (wVal 1)).2
  rw [show (tEmpty4.insert (wKey 1) (wVal 1)).2 = .ok (wVal 1) from by decide]
    at h
  exact h


end PHL
